import Mathlib

/-!
Verification of the test-module relocation tool
(`betting_platform/programs/betting_platform_native/move_tests.py`).

The tool scans a source tree for files containing an inline test module
(`#[cfg(test)] mod tests { ... }`), extracts the module by brace counting,
writes the individual test functions to a mirrored file under `tests/`,
and overwrites the original file with the remaining lines.

This file is a shallow embedding of that program: Python strings become
Lean `String`s, Python line lists become `List String`, the substring
operator `in`, `str.count`, `str.startswith`, slicing and `Path` stem
computation are modelled by explicit executable functions on character
lists.  Statements about the program are proved against these
definitions.  Opening and closing curly braces inside string literals are
written with their `\x7b` and `\x7d` escapes throughout.
-/

/-! ## Python string primitives -/

/-- Python whitespace characters, as used by `str.strip()` with no
arguments. -/
def pyIsSpace (c : Char) : Bool :=
  c == ' ' || c == '\t' || c == '\n' || c == '\x0b' || c == '\x0c' || c == '\r'

/-- `line.strip() == ''`: the line consists of whitespace only. -/
def isBlank (s : String) : Bool :=
  s.toList.all pyIsSpace

/-- Character-list prefix test (used to model `str.startswith` and the
substring operator). -/
def subListAt : List Char → List Char → Bool
  | [], _ => true
  | _ :: _, [] => false
  | a :: as, b :: bs => (a == b) && subListAt as bs

/-- Character-list substring test. -/
def hasSub (pat : List Char) : List Char → Bool
  | [] => pat.isEmpty
  | c :: rest => subListAt pat (c :: rest) || hasSub pat rest

/-- Python's substring operator: `pat in s`. -/
def pyIn (pat s : String) : Bool :=
  hasSub pat.toList s.toList

/-- Python's `s.startswith(pre)`. -/
def pyStartsWith (pre s : String) : Bool :=
  subListAt pre.toList s.toList

/-- Python's `s.endswith(suf)`. -/
def pyEndsWith (suf s : String) : Bool :=
  subListAt suf.toList.reverse s.toList.reverse

/-- Python's `s.count(c)` for a single character. -/
def countChar (c : Char) (s : String) : Nat :=
  s.toList.count c

/-- Python's slice `s[n:]`. -/
def pyDrop (s : String) (n : Nat) : String :=
  String.mk (s.toList.drop n)

/-- The opening curly brace character. -/
def obr : Char := '\x7b'

/-- The closing curly brace character. -/
def cbr : Char := '\x7d'

/-- `line.count('{') - line.count('}')`, the per-line delimiter balance
contribution. -/
def net (s : String) : Int :=
  (countChar obr s : Int) - (countChar cbr s : Int)

/-- The marker `'#[cfg(test)]'` searched for by the annotation detector. -/
def cfgPat : String := "#[cfg(test)]"

/-- The module declaration marker `'mod tests'`. -/
def modTestsPat : String := "mod tests"

/-- The single-character pattern `'{'`. -/
def obrPat : String := "\x7b"

/-- The single-character pattern `'}'`. -/
def cbrPat : String := "\x7d"

/-- The function-level marker `'#[test]'`. -/
def testAttrPat : String := "#[test]"

/-- The pattern `'fn '` checked against the joined fragment text. -/
def fnPat : String := "fn "

/-- One indentation unit: four spaces. -/
def fourSp : String := "    "

/-! ## The annotation detector (`extract_test_module`, lines 29-38) -/

/-- Lookahead used by the detector: the Python condition
`(i+1 < len(lines) and 'mod tests' in lines[i+1]) or
 (i+2 < len(lines) and 'mod tests' in lines[i+2])`, applied to the list of
lines following position `i`. -/
def lookAhead2 : List String → Bool
  | [] => false
  | a :: [] => pyIn modTestsPat a
  | a :: b :: _ => pyIn modTestsPat a || pyIn modTestsPat b

/-- The detector loop: first index `i` whose line contains `'#[cfg(test)]'`
with `'mod tests'` within the two-line lookahead window. -/
def findStartAux : List String → Nat → Option Nat
  | [], _ => none
  | l :: rest, i =>
    if pyIn cfgPat l && lookAhead2 rest then some i else findStartAux rest (i + 1)

/-- `test_start` as computed by `extract_test_module`; `none` models the
sentinel `-1`. -/
def find_test_start (lines : List String) : Option Nat :=
  findStartAux lines 0

/-! ## The balanced-block matcher (`extract_test_module`, lines 43-58) -/

/-- The trigger condition of the matcher loop:
`'mod tests' in line and '{' in line`. -/
def trigMT (l : String) : Bool :=
  pyIn modTestsPat l && pyIn obrPat l

/-- The matcher loop.  State: current index, brace counter, current
`test_end`, and the `in_test_module` flag.  The second component of the
result records whether the loop exited through the `break` (balance
returned to zero) rather than by reaching end of file; the Python code
observes only the first component. -/
def scanLoopB : List String → Nat → Int → Nat → Bool → Nat × Bool
  | [], _, _, te, _ => (te, false)
  | l :: rest, i, bal, te, inMod =>
    if trigMT l then scanLoopB rest (i + 1) 1 i true
    else if inMod then
      (if bal + net l = 0 then (i, true) else scanLoopB rest (i + 1) (bal + net l) te inMod)
    else scanLoopB rest (i + 1) bal te inMod

/-- `test_end` as computed by the matcher loop starting at `test_start`. -/
def find_test_end (lines : List String) (ts : Nat) : Nat :=
  (scanLoopB (lines.drop ts) ts 0 ts false).1

/-- The span `(test_start, test_end)` found by `extract_test_module`, when
a block is detected. -/
def find_span (lines : List String) : Option (Nat × Nat) :=
  match find_test_start lines with
  | none => none
  | some ts => some (ts, find_test_end lines ts)

/-! ## The block extractor (`extract_test_module`, lines 60-70) -/

/-- The cleanup loop: pop trailing lines whose `strip()` is empty. -/
def rstripBlanks (l : List String) : List String :=
  ((l.reverse.dropWhile isBlank)).reverse

/-- `extract_test_module`: returns `(None, lines)` when no block is
detected, otherwise the pair of `lines[test_start:test_end+1]` and the
remaining lines with trailing blank lines removed. -/
def extract_test_module (lines : List String) : Option (List String) × List String :=
  match find_span lines with
  | none => (none, lines)
  | some (ts, te) =>
    (some ((lines.drop ts).take (te - ts + 1)),
     rstripBlanks (lines.take ts ++ lines.drop (te + 1)))

/-! ## The function re-indenter (`create_test_file`, lines 117-153) -/

/-- The test-function collection loop of `create_test_file`.  State: the
`in_test_fn` flag, the current fragment, the `indent_level` counter (which
the Python code initialises once and never resets between fragments), and
the accumulated fragment list.  A line containing `'#[test]'` starts a new
fragment; inside a fragment, a line containing `'{'` updates the counter,
otherwise a line containing `'}'` updates it and closes the fragment when
the counter is zero and the joined fragment contains `'fn '`. -/
def extractFnsLoop : List String → Bool → List String → Int → List (List String) →
    List (List String)
  | [], _, _, _, acc => acc
  | l :: rest, inFn, cur, ind, acc =>
    if pyIn testAttrPat l then extractFnsLoop rest true [l] ind acc
    else if inFn then
      (if pyIn obrPat l then extractFnsLoop rest inFn (cur ++ [l]) (ind + net l) acc
       else if pyIn cbrPat l then
         (if ind + net l = 0 && pyIn fnPat (String.join (cur ++ [l])) then
            extractFnsLoop rest false [] (ind + net l) (acc ++ [cur ++ [l]])
          else extractFnsLoop rest inFn (cur ++ [l]) (ind + net l) acc)
       else extractFnsLoop rest inFn (cur ++ [l]) ind acc)
    else extractFnsLoop rest inFn cur ind acc

/-- The list `test_functions` computed from an extracted test module. -/
def extract_test_functions (tm : List String) : List (List String) :=
  extractFnsLoop tm false [] 0 []

/-- Per-line cleaning (lines 142-151): a non-blank line starting with four
spaces loses one indentation level; every other line passes unchanged. -/
def cleanLine (l : String) : String :=
  if isBlank l then l
  else if pyStartsWith fourSp l then pyDrop l 4 else l

/-- The newline line appended after each fragment. -/
def nlStr : String := "\n"

/-- The fixed header of every generated test file (lines 109-115); only
the module-path import varies. -/
def fixedHeader (modulePath : String) : List String :=
  ["use betting_platform_native::" ++ modulePath ++ "::*;\n",
   "use solana_program::pubkey::Pubkey;\n",
   "use solana_program::clock::Clock;\n",
   "use solana_program::program_error::ProgramError;\n",
   "\n"]

/-- The full `content` list written to the destination file: the fixed
header followed, for each extracted test function, by its cleaned lines
and a blank separator line. -/
def testFileContent (modulePath : String) (tm : List String) : List String :=
  fixedHeader modulePath ++
    (extract_test_functions tm).flatMap (fun fn => fn.map cleanLine ++ [nlStr])

/-! ## Path resolution (`create_test_file`, lines 86-106) -/

/-- A source file path relative to the scan root `src`: the parent
directory segments and the file name. -/
structure SrcPath where
  dirs : List String
  name : String
deriving DecidableEq

/-- Index of the first `'.'` in a character list (the list length when no
dot occurs); applied to the reversed name it models `str.rfind('.')`. -/
def idxOfDot : List Char → Nat
  | [] => 0
  | c :: rest => if c == '.' then 0 else idxOfDot rest + 1

/-- CPython's `PurePath.stem`: with `i = name.rfind('.')`, the result is
`name[:i]` when `0 < i < len(name) - 1` and the whole name otherwise. -/
def pyStem (name : String) : String :=
  if idxOfDot name.toList.reverse < name.toList.length then
    (if 0 < name.toList.length - 1 - idxOfDot name.toList.reverse ∧
        name.toList.length - 1 - idxOfDot name.toList.reverse < name.toList.length - 1 then
       String.mk (name.toList.take (name.toList.length - 1 - idxOfDot name.toList.reverse))
     else name)
  else name

/-- The fixed destination root `tests`. -/
def testsRoot : String := "tests"

/-- The suffix appended to the stem to form the destination file name. -/
def testsSuffix : String := "_tests.rs"

/-- Destination path resolution (lines 91-93):
`test_dir / rel_path.parent / (rel_path.stem + '_tests.rs')`. -/
def dest_path (p : SrcPath) : List String × String :=
  (testsRoot :: p.dirs, pyStem p.name ++ testsSuffix)

/-- The directory-index names excluded from the module path (lines
99-104). -/
def modRsStr : String := "mod.rs"

/-- The stem excluded from the module path. -/
def modStr : String := "mod"

/-- The `module_path` string joined with `'::'` (lines 99-106). -/
def module_path (p : SrcPath) : String :=
  String.intercalate "::"
    (p.dirs.filter (fun d => d ≠ modRsStr) ++
     (if pyStem p.name ≠ modStr then [pyStem p.name] else []))

/-! ## The source scanner (`find_test_modules`, lines 10-21)

The directory walk is modelled as a flat list of entries in walk order;
each entry carries its path and `some content` when the file can be read,
`none` when opening or reading it raises.  The Python function performs no
exception handling, so a raised error propagates out of the whole
function; this is modelled with `Except`, whose error value is the path of
the first unreadable `.rs` file. -/

/-- The source extension filter `file.endswith('.rs')`. -/
def rsExt : String := ".rs"

/-- `find_test_modules`: collect the paths of readable `.rs` files whose
content contains both `'#[cfg(test)]'` and `'mod tests'`; an unreadable
`.rs` file aborts the whole scan. -/
def find_test_modules : List (String × Option String) → Except String (List String)
  | [] => Except.ok []
  | e :: rest =>
    if pyEndsWith rsExt e.1 then
      match e.2 with
      | none => Except.error e.1
      | some c =>
        match find_test_modules rest with
        | Except.error m => Except.error m
        | Except.ok l =>
          Except.ok (if pyIn cfgPat c && pyIn modTestsPat c then e.1 :: l else l)
    else find_test_modules rest

/-! ## The orchestrator (`main`, lines 161-192)

Per-file processing is modelled as the list of file-system write events it
performs, in program order: `main` calls `create_test_file` (which writes
the destination file) strictly before it reopens and overwrites the
original source file, and only when the extracted module is truthy (a
non-empty list). -/

/-- A file-system write performed by `main`, tagged with the source path
it belongs to. -/
inductive FsEvent where
  | writeDest : SrcPath → List String → FsEvent
  | writeSrc : SrcPath → List String → FsEvent
deriving DecidableEq

/-- The events `main` performs for one file (lines 176-190). -/
def process_file (p : SrcPath) (lines : List String) : List FsEvent :=
  match extract_test_module lines with
  | (some tm, rem) =>
    if tm = [] then []
    else [FsEvent.writeDest p (testFileContent (module_path p) tm), FsEvent.writeSrc p rem]
  | (none, _) => []

/-- The event trace of a whole run over the given files, in scan order. -/
def main_trace (files : List (SrcPath × List String)) : List FsEvent :=
  files.flatMap (fun f => process_file f.1 f.2)

/-! ## Spec-side definitions

These definitions follow the wording of the specification rather than the
source; they exist to be compared with the source-derived definitions
above. -/

/-- Spec-worded balanced-block matcher (spec section 4.3): scan forward
from the candidate start; the first line with an opening delimiter sets
the counter to 1 and marks "inside block"; every subsequent line adds its
(opening count minus closing count); the first line at which the balance
returns to exactly zero is the end line, and reaching end of file first
means the match fails. -/
def specScanAux : List String → Nat → Int → Bool → Option Nat
  | [], _, _, _ => none
  | l :: rest, i, bal, inside =>
    if inside then
      (if bal + net l = 0 then some i else specScanAux rest (i + 1) (bal + net l) true)
    else if pyIn obrPat l then specScanAux rest (i + 1) 1 true
    else specScanAux rest (i + 1) bal false

/-- End line of the spec-worded matcher, scanning from the candidate
start line. -/
def spec_match_end (lines : List String) (ts : Nat) : Option Nat :=
  specScanAux (lines.drop ts) ts 0 false

/-- First index at which a running balance started at `b` returns to
exactly zero, used to characterise the matcher loop once inside the
block. -/
def firstZero : Int → List String → Nat → Option Nat
  | _, [], _ => none
  | b, s :: rest, i =>
    if b + net s = 0 then some i else firstZero (b + net s) rest (i + 1)

/-- Cumulative delimiter balance of `lines[ts..k]` (both ends
inclusive), the quantity named by the balance-invariant claims. -/
def sliceBalance (lines : List String) (ts k : Nat) : Int :=
  (((lines.drop ts).take (k - ts + 1)).map net).sum

/-- Re-adding one indentation level, the inverse operation named by the
round-trip claim. -/
def reAddIndent (l : String) : String := fourSp ++ l

/-- The round-trip operation of the spec (section 8): take the detected
span, extract the destination file's fragments, re-add one indentation
level to each line, and reinsert the result at the original span. -/
def roundTripReinsert (lines : List String) : Option (List String) :=
  match find_span lines with
  | none => none
  | some (ts, te) =>
    some (lines.take ts ++
      (((extract_test_functions ((lines.drop ts).take (te - ts + 1))).flatMap
          (fun fn => fn.map cleanLine)).map reAddIndent) ++
      lines.drop (te + 1))

/-! ## Concrete inputs used by the claim theorems -/

/-- A file whose test module is unterminated: the delimiter balance never
returns to zero before end of file. -/
def c1Input : List String :=
  ["#[cfg(test)]\n", "mod tests \x7b\n", "    #[test]\n", "    fn f() \x7b\n",
   "        assert!(true);\n"]

/-- A file with a blank line just before its test module. -/
def c2Input : List String :=
  ["fn a() \x7b\x7d\n", "\n", "#[cfg(test)]\n", "mod tests \x7b\n", "\x7d\n"]

/-- A minimal file with a complete test module. -/
def c2wInput : List String :=
  ["#[cfg(test)]\n", "mod tests \x7b\n", "\x7d\n"]

/-- A minimal file with a complete test module (balance-invariant
counterexample). -/
def c3Input : List String :=
  ["#[cfg(test)]\n", "mod tests \x7b\n", "\x7d\n"]

/-- A well-formed test module containing one test function. -/
def c3wInput : List String :=
  ["#[cfg(test)]\n", "mod tests \x7b\n", "    fn t() \x7b\n", "    \x7d\n", "\x7d\n"]

/-- A file containing two test modules. -/
def c4Input : List String :=
  ["#[cfg(test)]\n", "mod tests \x7b\n", "\x7d\n",
   "#[cfg(test)]\n", "mod tests \x7b\n", "\x7d\n"]

/-- The remainder the tool leaves behind after the first run on
`c4Input`: the second test module, which a second run extracts again. -/
def c4Rem1 : List String :=
  ["#[cfg(test)]\n", "mod tests \x7b\n", "\x7d\n"]

/-- A file with one marker line only. -/
def c4wInput : List String :=
  ["#[cfg(test)]\n", "mod tests \x7b\n", "\x7d\n"]

/-- A file with one test module containing one test function, preceded by
a production function. -/
def c5Input : List String :=
  ["fn a() \x7b\x7d\n", "#[cfg(test)]\n", "mod tests \x7b\n", "    #[test]\n",
   "    fn t() \x7b\n", "    \x7d\n", "\x7d\n"]

/-- One extracted test-function fragment, indented one level. -/
def c5wFrag : List String :=
  ["    #[test]\n", "    fn t() \x7b\n", "    \x7d\n"]

/-- A candidate block whose first opening delimiter appears on a line
without the module declaration. -/
def c6Input : List String :=
  ["#[cfg(test)]\n", "\x7b\n", "mod tests \x7b\n", "\x7d\n", "\x7d\n"]

/-- A well-formed test module used to instantiate the amended matcher
description. -/
def c6wInput : List String :=
  ["#[cfg(test)]\n", "mod tests \x7b\n", "    fn t() \x7b\n", "    \x7d\n", "\x7d\n"]

/-- A file whose test module contains one test function. -/
def c7wInput : List String :=
  ["#[cfg(test)]\n", "mod tests \x7b\n", "    #[test]\n", "    fn t() \x7b\n",
   "    \x7d\n", "\x7d\n"]

/-- Content of a readable file containing a test module. -/
def c8Content : String :=
  "#[cfg(test)]\nmod tests \x7b\n\x7d\n"

/-- A scan in which the first `.rs` entry is unreadable and a later entry
contains a test module. -/
def c8Entries : List (String × Option String) :=
  [("a.rs", none), ("b.rs", some c8Content)]

/-- A source file processed by the orchestrator model. -/
def c9Path : SrcPath := SrcPath.mk [] "x.rs"

/-- Its content: a test module and nothing else. -/
def c9Lines : List String :=
  ["#[cfg(test)]\n", "mod tests \x7b\n", "\x7d\n"]

/-- A hidden file named exactly `.rs` (its `Path.stem` is `.rs` itself). -/
def c10PathA : SrcPath := SrcPath.mk ["a"] ".rs"

/-- A distinct sibling whose stem is also `.rs`. -/
def c10PathB : SrcPath := SrcPath.mk ["a"] ".rs.rs"

/-- An ordinary source path. -/
def c10wPath : SrcPath := SrcPath.mk ["a"] "x.rs"

/-! ## Basic lemmas about the string primitives -/

theorem count_zero_hasSub_single (c : Char) :
    ∀ l : List Char, l.count c = 0 → hasSub [c] l = false := by
  intro l
  induction l with
  | nil => intro _; rfl
  | cons b rest ih =>
    intro h
    rw [List.count_cons] at h
    have hb : (b == c) = false := by
      by_cases hbc : b == c
      · simp [hbc] at h
      · simpa using hbc
    have hr : rest.count c = 0 := by
      by_cases hbc : (b == c) = true
      · rw [hbc] at hb; cases hb
      · simp [hbc] at h; omega
    have hcb : (c == b) = false := by
      cases hcb2 : (c == b)
      · rfl
      · rw [beq_iff_eq] at hcb2; subst hcb2; simp at hb
    simp [hasSub, subListAt, hcb, ih hr]

theorem pyIn_obr_false_of_count_zero {s : String} (h : countChar obr s = 0) :
    pyIn obrPat s = false := by
  have hp : obrPat.toList = [obr] := by decide
  unfold pyIn
  rw [hp]
  exact count_zero_hasSub_single obr s.toList h

theorem trigMT_false_of_braceFree {s : String} (h : countChar obr s = 0) :
    trigMT s = false := by
  unfold trigMT
  rw [pyIn_obr_false_of_count_zero h]
  exact Bool.and_false _

theorem net_zero_of_braceFree {s : String} (h1 : countChar obr s = 0)
    (h2 : countChar cbr s = 0) : net s = 0 := by
  unfold net
  rw [h1, h2]
  rfl

theorem sum_net_zero :
    ∀ l : List String, (∀ s ∈ l, countChar obr s = 0 ∧ countChar cbr s = 0) →
      (l.map net).sum = 0 := by
  intro l
  induction l with
  | nil => intro _; rfl
  | cons s rest ih =>
    intro h
    have hs := h s (by simp)
    have hr := ih (fun x hx => h x (by simp [hx]))
    simp [net_zero_of_braceFree hs.1 hs.2, hr]

theorem rstrip_decomp (l : List String) :
    ∃ stripped : List String,
      rstripBlanks l ++ stripped = l ∧ ∀ s ∈ stripped, isBlank s = true := by
  refine ⟨(l.reverse.takeWhile isBlank).reverse, ?_, ?_⟩
  · rw [rstripBlanks, ← List.reverse_append, List.takeWhile_append_dropWhile,
      List.reverse_reverse]
  · intro s hs
    exact List.mem_takeWhile_imp (List.mem_reverse.mp hs)

theorem rstrip_sublist (l : List String) : (rstripBlanks l).Sublist l := by
  rw [rstripBlanks]
  have h1 : (l.reverse.dropWhile isBlank).Sublist l.reverse :=
    List.dropWhile_sublist _
  have h2 := h1.reverse
  rwa [List.reverse_reverse] at h2

/-! ## Lemmas about the matcher loop -/

theorem scan_skip :
    ∀ (l1 rest : List String) (i : Nat) (b : Int) (te : Nat),
      (∀ s ∈ l1, trigMT s = false) →
      scanLoopB (l1 ++ rest) i b te false = scanLoopB rest (i + l1.length) b te false := by
  intro l1
  induction l1 with
  | nil => intro rest i b te _; simp
  | cons s l1' ih =>
    intro rest i b te h
    have hs : trigMT s = false := h s (by simp)
    have hrec := ih rest (i + 1) b te (fun x hx => h x (by simp [hx]))
    simp only [List.cons_append, scanLoopB, hs, Bool.false_eq_true, if_false]
    show scanLoopB (l1' ++ rest) (i + 1) b te false = _
    rw [hrec]
    have harith : i + 1 + l1'.length = i + (s :: l1').length := by
      simp [List.length_cons]; omega
    rw [harith]

theorem scan_inside :
    ∀ (l : List String) (i : Nat) (b : Int) (te : Nat),
      (∀ s ∈ l, trigMT s = false) →
      scanLoopB l i b te true =
        (match firstZero b l i with
         | some k => (k, true)
         | none => (te, false)) := by
  intro l
  induction l with
  | nil => intro i b te _; simp [scanLoopB, firstZero]
  | cons s rest ih =>
    intro i b te h
    have hs : trigMT s = false := h s (by simp)
    by_cases hz : b + net s = 0
    · simp [scanLoopB, firstZero, hs, hz]
    · simp only [scanLoopB, firstZero, hs, Bool.false_eq_true, if_false, if_true, hz,
        if_neg hz]
      exact ih (i + 1) (b + net s) te (fun x hx => h x (by simp [hx]))

theorem firstZero_spec :
    ∀ (l : List String) (b : Int) (i k : Nat),
      1 ≤ b → (∀ s ∈ l, -1 ≤ net s) → firstZero b l i = some k →
      ∃ n : Nat, k = i + n ∧ n < l.length ∧
        b + ((l.take (n + 1)).map net).sum = 0 ∧
        ∀ m : Nat, m ≤ n → 0 < b + ((l.take m).map net).sum := by
  intro l
  induction l with
  | nil => intro b i k _ _ hfz; cases hfz
  | cons s rest ih =>
    intro b i k hb hnet hfz
    by_cases hz : b + net s = 0
    · rw [firstZero, if_pos hz] at hfz
      refine ⟨0, by simpa using hfz.symm, by simp, by simpa using hz, ?_⟩
      intro m hm
      interval_cases m
      simpa using hb
    · rw [firstZero, if_neg hz] at hfz
      have hs : -1 ≤ net s := hnet s (by simp)
      have hb' : 1 ≤ b + net s := by omega
      obtain ⟨n', hk, hlt, hsum, hpos⟩ :=
        ih (b + net s) (i + 1) k hb' (fun x hx => hnet x (by simp [hx])) hfz
      refine ⟨n' + 1, by omega, ?_, ?_, ?_⟩
      · simp only [List.length_cons]; omega
      · have : (s :: rest).take (n' + 1 + 1) = s :: rest.take (n' + 1) := by
          simp [List.take_cons]
        rw [this]
        simp only [List.map_cons, List.sum_cons]
        omega
      · intro m hm
        cases m with
        | zero => simpa using hb
        | succ m' =>
          have : (s :: rest).take (m' + 1) = s :: rest.take m' := by
            simp [List.take_cons]
          rw [this]
          simp only [List.map_cons, List.sum_cons]
          have := hpos m' (by omega)
          omega

theorem firstZero_least :
    ∀ (l : List String) (b : Int) (i n : Nat),
      n < l.length → b + ((l.take (n + 1)).map net).sum = 0 →
      (∀ m : Nat, m < n → b + ((l.take (m + 1)).map net).sum ≠ 0) →
      firstZero b l i = some (i + n) := by
  intro l
  induction l with
  | nil => intro b i n h; simp at h
  | cons s rest ih =>
    intro b i n hn hsum hleast
    cases n with
    | zero =>
      have hz : b + net s = 0 := by simpa using hsum
      simp [firstZero, hz]
    | succ n' =>
      have hz : b + net s ≠ 0 := by
        have := hleast 0 (by omega)
        simpa using this
      rw [firstZero, if_neg hz]
      have harith : i + (n' + 1) = i + 1 + n' := by omega
      rw [harith]
      apply ih (b + net s) (i + 1) n' (by simp only [List.length_cons] at hn; omega)
      · have : (s :: rest).take (n' + 1 + 1) = s :: rest.take (n' + 1) := by
          simp [List.take_cons]
        rw [this] at hsum
        simp only [List.map_cons, List.sum_cons] at hsum
        omega
      · intro m hm
        have := hleast (m + 1) (by omega)
        have hcons : (s :: rest).take (m + 1 + 1) = s :: rest.take (m + 1) := by
          simp [List.take_cons]
        rw [hcons] at this
        simp only [List.map_cons, List.sum_cons] at this
        omega

theorem scan_te_ge :
    ∀ (l : List String) (i : Nat) (b : Int) (te : Nat) (im : Bool),
      te ≤ i → te ≤ (scanLoopB l i b te im).1 := by
  intro l
  induction l with
  | nil => intro i b te im h; simp [scanLoopB, h]
  | cons s rest ih =>
    intro i b te im h
    by_cases ht : trigMT s
    · simp only [scanLoopB, ht, if_true]
      have := ih (i + 1) 1 i true (by omega)
      omega
    · cases im with
      | true =>
        by_cases hz : b + net s = 0
        · simp only [scanLoopB, ht, Bool.false_eq_true, if_false, if_true, hz]
          simpa using h
        · simp only [scanLoopB, ht, Bool.false_eq_true, if_false, if_true, if_neg hz]
          exact ih (i + 1) (b + net s) te true (by omega)
      | false =>
        simp only [scanLoopB, ht, Bool.false_eq_true, if_false]
        exact ih (i + 1) b te false (by omega)

theorem scan_te_lt :
    ∀ (l : List String) (i : Nat) (b : Int) (te : Nat) (im : Bool) (N : Nat),
      te < N → i + l.length ≤ N → (scanLoopB l i b te im).1 < N := by
  intro l
  induction l with
  | nil => intro i b te im N h _; simpa [scanLoopB] using h
  | cons s rest ih =>
    intro i b te im N h hlen
    have hi : i < N := by simp [List.length_cons] at hlen; omega
    have hlen' : i + 1 + rest.length ≤ N := by simp [List.length_cons] at hlen; omega
    by_cases ht : trigMT s
    · simp only [scanLoopB, ht, if_true]
      exact ih (i + 1) 1 i true N hi hlen'
    · cases im with
      | true =>
        by_cases hz : b + net s = 0
        · simp only [scanLoopB, ht, Bool.false_eq_true, if_false, if_true, hz]
          simpa using hi
        · simp only [scanLoopB, ht, Bool.false_eq_true, if_false, if_true, if_neg hz]
          exact ih (i + 1) (b + net s) te true N h hlen'
      | false =>
        simp only [scanLoopB, ht, Bool.false_eq_true, if_false]
        exact ih (i + 1) b te false N h hlen'

/-! ## Lemmas about the detector, the span and the extractor -/

theorem findStartAux_some :
    ∀ (l : List String) (i j : Nat), findStartAux l i = some j →
      i ≤ j ∧ ∃ a rest, l.drop (j - i) = a :: rest ∧ pyIn cfgPat a = true := by
  intro l
  induction l with
  | nil => intro i j h; cases h
  | cons s rest ih =>
    intro i j h
    rw [findStartAux] at h
    by_cases hg : (pyIn cfgPat s && lookAhead2 rest) = true
    · rw [if_pos hg] at h
      have hj : i = j := Option.some.inj h
      subst hj
      refine ⟨le_refl i, s, rest, by simp, ?_⟩
      exact ((Bool.and_eq_true _ _).mp hg).1
    · rw [if_neg hg] at h
      obtain ⟨hij, a, r, hd, hc⟩ := ih (i + 1) j h
      refine ⟨by omega, a, r, ?_, hc⟩
      have harith : j - i = (j - (i + 1)) + 1 := by omega
      rw [harith, List.drop_succ_cons]
      exact hd

theorem find_start_drop {lines : List String} {ts : Nat}
    (h : find_test_start lines = some ts) :
    ts < lines.length ∧ ∃ a rest, lines.drop ts = a :: rest ∧ pyIn cfgPat a = true := by
  obtain ⟨_, a, rest, hd, hc⟩ := findStartAux_some lines 0 ts h
  rw [Nat.sub_zero] at hd
  constructor
  · by_contra hlen
    push_neg at hlen
    rw [List.drop_eq_nil_of_le hlen] at hd
    cases hd
  · exact ⟨a, rest, hd, hc⟩

theorem span_bounds {lines : List String} {ts te : Nat}
    (h : find_span lines = some (ts, te)) :
    find_test_start lines = some ts ∧ te = find_test_end lines ts ∧
      ts ≤ te ∧ te < lines.length := by
  have hdecomp : find_test_start lines = some ts ∧ te = find_test_end lines ts := by
    unfold find_span at h
    cases hs : find_test_start lines with
    | none => rw [hs] at h; cases h
    | some ts' =>
      rw [hs] at h
      have hpair := Option.some.inj h
      have h1 : ts' = ts := congrArg Prod.fst hpair
      have h2 : find_test_end lines ts' = te := congrArg Prod.snd hpair
      exact ⟨by rw [h1], by rw [← h2, h1]⟩
  obtain ⟨hs, hte⟩ := hdecomp
  obtain ⟨hlen, -⟩ := find_start_drop hs
  refine ⟨hs, hte, ?_, ?_⟩
  · rw [hte]
    exact scan_te_ge (lines.drop ts) ts 0 ts false (le_refl ts)
  · rw [hte]
    apply scan_te_lt (lines.drop ts) ts 0 ts false lines.length hlen
    rw [List.length_drop]
    omega

theorem extract_structure {lines tm rem : List String}
    (h : extract_test_module lines = (some tm, rem)) :
    ∃ ts te stripped,
      find_span lines = some (ts, te) ∧
      tm = (lines.drop ts).take (te - ts + 1) ∧
      rem = rstripBlanks (lines.take ts ++ lines.drop (te + 1)) ∧
      lines = lines.take ts ++ tm ++ lines.drop (te + 1) ∧
      rem ++ stripped = lines.take ts ++ lines.drop (te + 1) ∧
      (∀ s ∈ stripped, isBlank s = true) := by
  cases hspan : find_span lines with
  | none =>
    unfold extract_test_module at h
    rw [hspan] at h
    have h2 : ((none : Option (List String)), lines) = (some tm, rem) := h
    have h3 := congrArg Prod.fst h2
    simp at h3
  | some p =>
    obtain ⟨ts, te⟩ := p
    unfold extract_test_module at h
    rw [hspan] at h
    have h2 : (some ((lines.drop ts).take (te - ts + 1)),
        rstripBlanks (lines.take ts ++ lines.drop (te + 1))) = (some tm, rem) := h
    have htm' : (lines.drop ts).take (te - ts + 1) = tm :=
      Option.some.inj (congrArg Prod.fst h2)
    have hrem : rstripBlanks (lines.take ts ++ lines.drop (te + 1)) = rem :=
      congrArg Prod.snd h2
    obtain ⟨hstart, -, hle, hlt⟩ := span_bounds hspan
    obtain ⟨stripped, hdec, hblank⟩ :=
      rstrip_decomp (lines.take ts ++ lines.drop (te + 1))
    have e3 : (lines.drop ts).drop (te - ts + 1) = lines.drop (te + 1) := by
      rw [List.drop_drop]
      congr 1
      omega
    refine ⟨ts, te, stripped, rfl, htm'.symm, hrem.symm, ?_, ?_, hblank⟩
    · calc lines = lines.take ts ++ lines.drop ts := (List.take_append_drop ts lines).symm
        _ = lines.take ts ++
              ((lines.drop ts).take (te - ts + 1) ++ (lines.drop ts).drop (te - ts + 1)) := by
            rw [List.take_append_drop (te - ts + 1) (lines.drop ts)]
        _ = lines.take ts ++ (tm ++ lines.drop (te + 1)) := by rw [htm', e3]
        _ = lines.take ts ++ tm ++ lines.drop (te + 1) := by rw [List.append_assoc]
    · rw [hrem] at hdec
      exact hdec


theorem no_cfg_findStartAux :
    ∀ (l : List String) (i : Nat), (∀ s ∈ l, pyIn cfgPat s = false) →
      findStartAux l i = none := by
  intro l
  induction l with
  | nil => intro i _; rfl
  | cons s rest ih =>
    intro i h
    have hs : pyIn cfgPat s = false := h s (by simp)
    rw [findStartAux, hs]
    simp only [Bool.false_and, Bool.false_eq_true, if_false]
    exact ih (i + 1) (fun x hx => h x (by simp [hx]))

theorem extract_of_no_cfg {l : List String} (h : ∀ s ∈ l, pyIn cfgPat s = false) :
    extract_test_module l = (none, l) := by
  unfold extract_test_module find_span find_test_start
  rw [no_cfg_findStartAux l 0 h]

/-! ## Lemmas about the function re-indenter -/

theorem extractFnsLoop_good :
    ∀ (input : List String) (TM : List String) (inFn : Bool) (cur : List String)
      (ind : Int) (acc : List (List String)),
      (∃ p0, TM = p0 ++ input) →
      (∀ fn ∈ acc, (∃ h0 t0, fn = h0 :: t0 ∧ pyIn testAttrPat h0 = true) ∧
        ∃ p q, TM = p ++ fn ++ q) →
      (inFn = true → (∃ h0 t0, cur = h0 :: t0 ∧ pyIn testAttrPat h0 = true) ∧
        ∃ p, TM = p ++ cur ++ input) →
      ∀ fn ∈ extractFnsLoop input inFn cur ind acc,
        (∃ h0 t0, fn = h0 :: t0 ∧ pyIn testAttrPat h0 = true) ∧
        ∃ p q, TM = p ++ fn ++ q := by
  intro input
  induction input with
  | nil =>
    intro TM inFn cur ind acc _ hacc _ fn hfn
    exact hacc fn hfn
  | cons l rest ih =>
    intro TM inFn cur ind acc hpre hacc hcur fn hfn
    obtain ⟨p0, hp0⟩ := hpre
    rw [extractFnsLoop] at hfn
    by_cases ht : pyIn testAttrPat l = true
    · rw [if_pos ht] at hfn
      refine ih TM true [l] ind acc ⟨p0 ++ [l], by simp [hp0]⟩ hacc ?_ fn hfn
      intro _
      exact ⟨⟨l, [], rfl, ht⟩, p0, by simp [hp0]⟩
    · rw [if_neg ht] at hfn
      cases inFn with
      | false =>
        simp only [Bool.false_eq_true, if_false] at hfn
        exact ih TM false cur ind acc ⟨p0 ++ [l], by simp [hp0]⟩ hacc
          (fun hh => by cases hh) fn hfn
      | true =>
        simp only [if_true] at hfn
        obtain ⟨⟨h0, t0, hcur0, hth⟩, p, hp⟩ := hcur rfl
        have hp' : TM = p ++ (cur ++ [l]) ++ rest := by
          rw [hp]
          simp [List.append_assoc]
        by_cases hb : pyIn obrPat l = true
        · rw [if_pos hb] at hfn
          refine ih TM true (cur ++ [l]) (ind + net l) acc ⟨p0 ++ [l], by simp [hp0]⟩
            hacc ?_ fn hfn
          intro _
          exact ⟨⟨h0, t0 ++ [l], by simp [hcur0], hth⟩, p, hp'⟩
        · rw [if_neg hb] at hfn
          by_cases hcb : pyIn cbrPat l = true
          · rw [if_pos hcb] at hfn
            by_cases hclose :
                (decide (ind + net l = 0) &&
                  pyIn fnPat (String.join (cur ++ [l]))) = true
            · rw [if_pos hclose] at hfn
              refine ih TM false [] (ind + net l) (acc ++ [cur ++ [l]])
                ⟨p0 ++ [l], by simp [hp0]⟩ ?_ (fun hh => by cases hh) fn hfn
              intro g hg
              rcases List.mem_append.mp hg with hg1 | hg2
              · exact hacc g hg1
              · have hgeq : g = cur ++ [l] := by simpa using hg2
                subst hgeq
                exact ⟨⟨h0, t0 ++ [l], by simp [hcur0], hth⟩, p, rest, hp'⟩
            · rw [if_neg hclose] at hfn
              refine ih TM true (cur ++ [l]) (ind + net l) acc ⟨p0 ++ [l], by simp [hp0]⟩
                hacc ?_ fn hfn
              intro _
              exact ⟨⟨h0, t0 ++ [l], by simp [hcur0], hth⟩, p, hp'⟩
          · rw [if_neg hcb] at hfn
            refine ih TM true (cur ++ [l]) ind acc ⟨p0 ++ [l], by simp [hp0]⟩
              hacc ?_ fn hfn
            intro _
            exact ⟨⟨h0, t0 ++ [l], by simp [hcur0], hth⟩, p, hp'⟩

theorem extract_test_functions_good {tm : List String} :
    ∀ fn ∈ extract_test_functions tm,
      (∃ h0 t0, fn = h0 :: t0 ∧ pyIn testAttrPat h0 = true) ∧
      ∃ p q, tm = p ++ fn ++ q := by
  intro fn hfn
  exact extractFnsLoop_good tm tm false [] 0 [] ⟨[], by simp⟩ (by simp)
    (fun hh => by cases hh) fn hfn

/-! ## Lemmas about cleaning, stems and the event trace -/

theorem subListAt_split :
    ∀ (p s : List Char), subListAt p s = true → ∃ t, s = p ++ t := by
  intro p
  induction p with
  | nil => intro s _; exact ⟨s, rfl⟩
  | cons a as ih =>
    intro s h
    cases s with
    | nil => cases h
    | cons b bs =>
      rw [subListAt, Bool.and_eq_true] at h
      obtain ⟨t, ht⟩ := ih bs h.2
      have hab : a = b := by
        have := h.1
        rwa [beq_iff_eq] at this
      exact ⟨t, by rw [ht, hab]; rfl⟩

theorem strToList_inj {a b : String} (h : a.toList = b.toList) : a = b := by
  cases a
  cases b
  simp [String.toList] at h
  rw [h]

theorem strToList_append (a b : String) : (a ++ b).toList = a.toList ++ b.toList := by
  cases a
  cases b
  rfl

theorem fourSp_append_drop {l : String} (h : pyStartsWith fourSp l = true) :
    fourSp ++ pyDrop l 4 = l := by
  obtain ⟨t, ht⟩ := subListAt_split fourSp.toList l.toList h
  apply strToList_inj
  rw [strToList_append]
  have hdrop : (pyDrop l 4).toList = l.toList.drop 4 := rfl
  rw [hdrop, ht]
  have h4 : fourSp.toList.length = 4 := by decide
  rw [← h4, List.drop_left]

theorem cleanLine_roundTrip {l : String} (hb : isBlank l = false)
    (hp : pyStartsWith fourSp l = true) : reAddIndent (cleanLine l) = l := by
  unfold cleanLine reAddIndent
  rw [hb, hp]
  simp only [Bool.false_eq_true, if_false, if_true]
  exact fourSp_append_drop hp

theorem cleanFrag_roundTrip {fn : List String}
    (h : ∀ l ∈ fn, isBlank l = false ∧ pyStartsWith fourSp l = true) :
    (fn.map cleanLine).map reAddIndent = fn := by
  induction fn with
  | nil => rfl
  | cons l rest ih =>
    have hl := h l (by simp)
    simp only [List.map_cons]
    rw [cleanLine_roundTrip hl.1 hl.2, ih (fun x hx => h x (by simp [hx]))]

theorem idxOfDot_srdot (x : List Char) : idxOfDot ('s' :: 'r' :: '.' :: x) = 2 := by
  have h1 : ('s' == '.') = false := by decide
  have h2 : ('r' == '.') = false := by decide
  have h3 : ('.' == '.') = true := by decide
  rw [idxOfDot, h1, if_neg (by simp), idxOfDot, h2, if_neg (by simp), idxOfDot, h3,
    if_pos rfl]

theorem pyStem_rs {m : String} (hm : m.toList ≠ []) : pyStem (m ++ rsExt) = m := by
  unfold pyStem
  have hdata : (m ++ rsExt).toList = m.toList ++ ['.', 'r', 's'] := by
    rw [strToList_append]
    rfl
  rw [hdata]
  have hrev : (m.toList ++ ['.', 'r', 's']).reverse = 's' :: 'r' :: '.' :: m.toList.reverse := by
    simp
  rw [hrev, idxOfDot_srdot, List.length_append]
  have hlen3 : (['.', 'r', 's'] : List Char).length = 3 := by decide
  rw [hlen3]
  have hpos : 0 < m.toList.length := List.length_pos.mpr hm
  rw [if_pos (by omega)]
  have harith : m.toList.length + 3 - 1 - 2 = m.toList.length := by omega
  rw [harith]
  rw [if_pos ⟨hpos, by omega⟩]
  rw [List.take_left]
  cases m
  rfl

theorem dest_path_inj_normal {p q : SrcPath} {m1 m2 : String}
    (hp : p.name = m1 ++ rsExt) (hm1 : m1.toList ≠ [])
    (hq : q.name = m2 ++ rsExt) (hm2 : m2.toList ≠ [])
    (h : dest_path p = dest_path q) : p = q := by
  unfold dest_path at h
  have hd : testsRoot :: p.dirs = testsRoot :: q.dirs := congrArg Prod.fst h
  have hn : pyStem p.name ++ testsSuffix = pyStem q.name ++ testsSuffix :=
    congrArg Prod.snd h
  rw [hp, hq, pyStem_rs hm1, pyStem_rs hm2] at hn
  have hm : m1 = m2 := by
    apply strToList_inj
    have hl := congrArg String.toList hn
    rw [strToList_append, strToList_append] at hl
    exact List.append_cancel_right hl
  have hdirs : p.dirs = q.dirs := by
    injection hd
  have hname : p.name = q.name := by rw [hp, hq, hm]
  cases p
  cases q
  simp_all

theorem process_file_shape (p : SrcPath) (lines : List String) :
    process_file p lines = [] ∨
    ∃ tm rem, extract_test_module lines = (some tm, rem) ∧
      process_file p lines =
        [FsEvent.writeDest p (testFileContent (module_path p) tm),
         FsEvent.writeSrc p rem] := by
  unfold process_file
  rcases hx : extract_test_module lines with ⟨otm, rem⟩
  cases otm with
  | none => left; rfl
  | some tm =>
    by_cases htm : tm = []
    · left
      simp [htm]
    · right
      exact ⟨tm, rem, rfl, by simp [htm]⟩

theorem trace_dest_before_src :
    ∀ (files : List (SrcPath × List String)) (l1 l2 : List FsEvent) (p : SrcPath)
      (r : List String),
      main_trace files = l1 ++ FsEvent.writeSrc p r :: l2 →
      ∃ c, FsEvent.writeDest p c ∈ l1 := by
  intro files
  induction files with
  | nil =>
    intro l1 l2 p r h
    rw [main_trace] at h
    simp at h
  | cons f fs ih =>
    intro l1 l2 p r h
    have hstep : main_trace (f :: fs) = process_file f.1 f.2 ++ main_trace fs := by
      rw [main_trace, List.flatMap_cons]
      rfl
    rw [hstep] at h
    rcases process_file_shape f.1 f.2 with hemp | ⟨tm, rem, hx, hpf⟩
    · rw [hemp, List.nil_append] at h
      exact ih l1 l2 p r h
    · rw [hpf] at h
      cases l1 with
      | nil =>
        simp at h
      | cons x l1' =>
        cases l1' with
        | nil =>
          simp only [List.cons_append, List.nil_append, List.cons.injEq] at h
          obtain ⟨hx1, hx2, -⟩ := h
          have hp1 : f.1 = p := by
            injection hx2.symm with he1 he2
            exact he1.symm
          refine ⟨testFileContent (module_path f.1) tm, ?_⟩
          rw [← hp1, hx1]
          simp
        | cons y l1'' =>
          simp only [List.cons_append, List.cons.injEq] at h
          obtain ⟨hx1, hy1, htr⟩ := h
          obtain ⟨c, hc⟩ := ih l1'' l2 p r htr
          exact ⟨c, by simp [hc]⟩

/-! ## Lemmas about the scanner and repeated runs -/

theorem find_test_modules_aborts :
    ∀ (pre : List (String × Option String)) (p : String)
      (post : List (String × Option String)),
      (∀ e ∈ pre, pyEndsWith rsExt e.1 = false ∨ ∃ c, e.2 = some c) →
      pyEndsWith rsExt p = true →
      find_test_modules (pre ++ (p, none) :: post) = Except.error p := by
  intro pre
  induction pre with
  | nil =>
    intro p post _ hrs
    rw [List.nil_append, find_test_modules]
    rw [if_pos hrs]
  | cons e pre' ih =>
    intro p post h hrs
    have he := h e (by simp)
    have hrec := ih p post (fun x hx => h x (by simp [hx])) hrs
    rw [List.cons_append, find_test_modules]
    rcases he with hne | ⟨c, hc⟩
    · rw [hne]
      simp only [Bool.false_eq_true, if_false]
      exact hrec
    · by_cases hrs2 : pyEndsWith rsExt e.1 = true
      · rw [if_pos hrs2, hc, hrec]
      · rw [if_neg hrs2]
        exact hrec

theorem rem_no_cfg {lines tm rem : List String}
    (h : extract_test_module lines = (some tm, rem))
    (hcount : lines.countP (fun l => pyIn cfgPat l) ≤ 1) :
    ∀ s ∈ rem, pyIn cfgPat s = false := by
  obtain ⟨ts, te, stripped, hspan, htm, hremdef, hsplit, hdec, hblank⟩ :=
    extract_structure h
  obtain ⟨hstart, hte, hle, hlt⟩ := span_bounds hspan
  obtain ⟨hlen, a, arest, hdrop, hcfga⟩ := find_start_drop hstart
  have hdropdrop : lines.drop (te + 1) = arest.drop (te - ts) := by
    have h1 : lines.drop (te + 1) = (lines.drop ts).drop (te - ts + 1) := by
      rw [List.drop_drop]
      congr 1
      omega
    rw [h1, hdrop, List.drop_succ_cons]
  have hctotal : lines.countP (fun l => pyIn cfgPat l) =
      (lines.take ts).countP (fun l => pyIn cfgPat l) +
        (a :: arest).countP (fun l => pyIn cfgPat l) := by
    conv_lhs => rw [← List.take_append_drop ts lines]
    rw [List.countP_append, hdrop]
  have hca : (a :: arest).countP (fun l => pyIn cfgPat l) =
      arest.countP (fun l => pyIn cfgPat l) + 1 := by
    rw [List.countP_cons]
    simp [hcfga]
  have htake0 : (lines.take ts).countP (fun l => pyIn cfgPat l) = 0 := by omega
  have harest0 : arest.countP (fun l => pyIn cfgPat l) = 0 := by omega
  have htail0 : (arest.drop (te - ts)).countP (fun l => pyIn cfgPat l) = 0 := by
    have hsub : (arest.drop (te - ts)).Sublist arest := List.drop_sublist _ _
    have := hsub.countP_le (fun l => pyIn cfgPat l)
    omega
  intro s hs
  have hsrem : s ∈ lines.take ts ++ lines.drop (te + 1) := by
    rw [← hdec]
    exact List.mem_append_left _ hs
  rcases List.mem_append.mp hsrem with hmem | hmem
  · have := (List.countP_eq_zero.mp htake0) s hmem
    simpa using this
  · rw [hdropdrop] at hmem
    have := (List.countP_eq_zero.mp htail0) s hmem
    simpa using this

theorem second_run_no_block {lines tm rem : List String}
    (h : extract_test_module lines = (some tm, rem))
    (hcount : lines.countP (fun l => pyIn cfgPat l) ≤ 1) :
    extract_test_module rem = (none, rem) :=
  extract_of_no_cfg (rem_no_cfg h hcount)

/-! ## Decomposition of the matcher run -/

theorem scan_decomp {lines : List String} {ts : Nat} {l1 : List String} {t : String}
    {l2 : List String}
    (hd : lines.drop ts = l1 ++ t :: l2)
    (h1 : ∀ s ∈ l1, trigMT s = false)
    (ht : trigMT t = true)
    (h2 : ∀ s ∈ l2, trigMT s = false) :
    scanLoopB (lines.drop ts) ts 0 ts false =
      (match firstZero 1 l2 (ts + l1.length + 1) with
       | some k => (k, true)
       | none => (ts + l1.length, false)) := by
  rw [hd, scan_skip l1 (t :: l2) ts 0 ts h1]
  rw [scanLoopB]
  rw [ht]
  simp only [if_true]
  exact scan_inside l2 (ts + l1.length + 1) 1 (ts + l1.length) h2

/-! ## Claim C1 -/

/-- C1: the specification claims that when end of file is reached before the
delimiter balance returns to zero the match fails and no mutation is performed.
On `c1Input` the matcher loop never breaks (the balance never returns to zero),
yet `extract_test_module` still returns a truncated block together with a
changed remainder, and the orchestrator model consequently performs writes: the
file is mutated, contradicting the claim.  The code has no failure path for an
unterminated block. -/
theorem c1_unbalanced_block_still_mutates :
    (scanLoopB (c1Input.drop 0) 0 0 0 false).2 = false ∧
    find_span c1Input = some (0, 1) ∧
    extract_test_module c1Input =
      (some ["#[cfg(test)]\n", "mod tests \x7b\n"],
       ["    #[test]\n", "    fn f() \x7b\n", "        assert!(true);\n"]) ∧
    (extract_test_module c1Input).2 ≠ c1Input ∧
    process_file (SrcPath.mk [] "f.rs") c1Input ≠ [] := by
  refine ⟨by decide, by decide, by decide, by decide, by decide⟩

/-! ## Claim C2 -/

/-- C2 counterexample: on `c2Input` the extracted block has 3 lines and the
returned remainder 1 line, while the original file has 5 lines, because the
blank line preceding the block is stripped from the remainder's tail. -/
theorem c2_line_count_not_preserved :
    extract_test_module c2Input =
      (some ["#[cfg(test)]\n", "mod tests \x7b\n", "\x7d\n"], ["fn a() \x7b\x7d\n"]) ∧
    (["#[cfg(test)]\n", "mod tests \x7b\n", "\x7d\n"].length +
        ["fn a() \x7b\x7d\n"].length ≠ c2Input.length) := by
  refine ⟨by decide, by decide⟩

/-- C2 (amended): whenever a block is detected, the lines of the extracted
block and of the returned remainder account for every line of the original
file except the trailing blank lines stripped from the remainder's tail:
there is a list of blank lines `stripped` with
`tm.length + rem.length + stripped.length = lines.length`. -/
theorem c2_line_count_amended (lines tm rem : List String)
    (h : extract_test_module lines = (some tm, rem)) :
    ∃ stripped : List String, (∀ s ∈ stripped, isBlank s = true) ∧
      tm.length + rem.length + stripped.length = lines.length := by
  obtain ⟨ts, te, stripped, hspan, htm, hremdef, hsplit, hdec, hblank⟩ :=
    extract_structure h
  obtain ⟨hstart, hte, hle, hlt⟩ := span_bounds hspan
  refine ⟨stripped, hblank, ?_⟩
  have h1 : tm.length = te - ts + 1 := by
    rw [htm, List.length_take, List.length_drop]
    omega
  have h2 := congrArg List.length hdec
  rw [List.length_append, List.length_append, List.length_take, List.length_drop] at h2
  omega

/-- Witness for the amended C2 at a concrete input. -/
theorem c2_line_count_amended_witness :
    ∃ stripped : List String, (∀ s ∈ stripped, isBlank s = true) ∧
      c2wInput.length + ([] : List String).length + stripped.length = c2wInput.length :=
  c2_line_count_amended c2wInput c2wInput [] (by decide)

/-! ## Claim C3 -/

/-- C3 counterexample: on `c3Input` the matched span is `(0, 2)`, so `k = 0`
is a proper prefix position (`0 < 2`), yet the cumulative balance of
`lines[0..0]` is `0`, not strictly positive: the line at `test_start` is the
attribute line, which contains no delimiter. -/
theorem c3_prefix_balance_not_positive :
    find_span c3Input = some (0, 2) ∧ sliceBalance c3Input 0 0 = 0 ∧
      ¬ (0 : Int) < sliceBalance c3Input 0 0 := by
  refine ⟨by decide, by decide, by decide⟩

/-- C3 (amended): for a span found by the matcher that terminates through the
break, and under well-formedness of the block — the lines between
`test_start` and the module-declaration line carry no delimiters, the
declaration line carries exactly one opening and no closing delimiter and is
the only trigger line, and no line closes more than one level net — the
cumulative balance over `lines[test_start..test_end]` is exactly zero, is
nonnegative at every prefix, and is strictly positive at every prefix that
includes the module-declaration line; `test_start ≤ test_end` holds. -/
theorem c3_balance_invariant_amended (lines : List String) (ts te : Nat)
    (l1 : List String) (t : String) (l2 : List String)
    (hspan : find_span lines = some (ts, te))
    (hdec : lines.drop ts = l1 ++ t :: l2)
    (h1 : ∀ s ∈ l1, countChar obr s = 0 ∧ countChar cbr s = 0)
    (ht : trigMT t = true)
    (hto : countChar obr t = 1) (htc : countChar cbr t = 0)
    (h2 : ∀ s ∈ l2, trigMT s = false ∧ -1 ≤ net s)
    (hbroke : (scanLoopB (lines.drop ts) ts 0 ts false).2 = true) :
    ts ≤ te ∧ sliceBalance lines ts te = 0 ∧
    (∀ k, ts ≤ k → k ≤ te → 0 ≤ sliceBalance lines ts k) ∧
    (∀ k, ts + l1.length ≤ k → k < te → 0 < sliceBalance lines ts k) := by
  obtain ⟨hstart, hte, hle, hlt⟩ := span_bounds hspan
  have h1' : ∀ s ∈ l1, trigMT s = false := fun s hs =>
    trigMT_false_of_braceFree (h1 s hs).1
  have h2' : ∀ s ∈ l2, trigMT s = false := fun s hs => (h2 s hs).1
  have hscan := scan_decomp hdec h1' ht h2'
  cases hfz : firstZero 1 l2 (ts + l1.length + 1) with
  | none =>
    rw [hscan, hfz] at hbroke
    cases hbroke
  | some k =>
    have hk : te = k := by
      rw [hte, find_test_end, hscan, hfz]
    obtain ⟨n, hkn, hnlen, hsum, hpos⟩ :=
      firstZero_spec l2 1 (ts + l1.length + 1) k (le_refl 1)
        (fun s hs => (h2 s hs).2) hfz
    have hnet_t : net t = 1 := by
      rw [net, hto, htc]
      rfl
    have hsum_l1 : ∀ r : Nat, ((l1.take r).map net).sum = 0 := by
      intro r
      apply sum_net_zero
      intro s hs
      exact h1 s (List.take_subset r l1 hs)
    have hslice : ∀ k', sliceBalance lines ts k' =
        (((l1 ++ t :: l2).take (k' - ts + 1)).map net).sum := by
      intro k'
      rw [sliceBalance, hdec]
    have hbig : ∀ r : Nat,
        (((l1 ++ t :: l2).take (l1.length + (r + 1))).map net).sum =
          1 + ((l2.take r).map net).sum := by
      intro r
      rw [List.take_append_eq_append_take]
      have ha : l1.take (l1.length + (r + 1)) = l1 := List.take_of_length_le (by omega)
      have hb : l1.length + (r + 1) - l1.length = r + 1 := by omega
      rw [ha, hb, List.take_succ_cons, List.map_append, List.sum_append,
        sum_net_zero l1 h1, List.map_cons, List.sum_cons, hnet_t]
      omega
    have hsmall : ∀ r : Nat, r ≤ l1.length →
        (((l1 ++ t :: l2).take r).map net).sum = 0 := by
      intro r hr
      rw [List.take_append_eq_append_take]
      have hb : r - l1.length = 0 := by omega
      rw [hb, List.take_zero, List.append_nil]
      exact hsum_l1 r
    have hteval : te = ts + l1.length + 1 + n := by omega
    refine ⟨by omega, ?_, ?_, ?_⟩
    · rw [hslice te]
      have : te - ts + 1 = l1.length + (n + 1 + 1) := by omega
      rw [this, hbig (n + 1)]
      omega
    · intro k' hk1 hk2
      rw [hslice k']
      by_cases hcase : k' - ts + 1 ≤ l1.length
      · rw [hsmall _ hcase]
      · have hr : ∃ r : Nat, k' - ts + 1 = l1.length + (r + 1) ∧ r ≤ n + 1 := by
          refine ⟨k' - ts - l1.length, by omega, by omega⟩
        obtain ⟨r, hreq, hrle⟩ := hr
        rw [hreq, hbig r]
        by_cases hrn : r ≤ n
        · have := hpos r hrn
          omega
        · have hrn1 : r = n + 1 := by omega
          rw [hrn1]
          omega
    · intro k' hk1 hk2
      rw [hslice k']
      have hr : ∃ r : Nat, k' - ts + 1 = l1.length + (r + 1) ∧ r ≤ n := by
        refine ⟨k' - ts - l1.length, by omega, by omega⟩
      obtain ⟨r, hreq, hrle⟩ := hr
      rw [hreq, hbig r]
      have := hpos r hrle
      omega

/-- Witness for the amended C3 at a concrete input. -/
theorem c3_balance_invariant_amended_witness :
    (0 : Nat) ≤ 4 ∧ sliceBalance c3wInput 0 4 = 0 ∧
      (0 : Int) ≤ sliceBalance c3wInput 0 2 ∧ (0 : Int) < sliceBalance c3wInput 0 1 := by
  obtain ⟨ha, hb, hc, hd⟩ :=
    c3_balance_invariant_amended c3wInput 0 4 ["#[cfg(test)]\n"] ("mod tests \x7b\n")
      ["    fn t() \x7b\n", "    \x7d\n", "\x7d\n"]
      (by decide) (by decide) (by decide) (by decide) (by decide) (by decide)
      (by decide) (by decide)
  exact ⟨ha, hb, hc 2 (by omega) (by decide), hd 1 (by decide) (by decide)⟩

/-! ## Claim C4 -/

/-- C4 counterexample: `c4Input` contains two test modules.  The first run
extracts the first module and leaves the second module as the remainder
`c4Rem1`; a second run on `c4Rem1` detects a block again and mutates the file
again (the new remainder is empty), so the second run neither reports
"no block" nor leaves the tree unchanged. -/
theorem c4_second_run_extracts_again :
    extract_test_module c4Input = (some c4Rem1, c4Rem1) ∧
    extract_test_module c4Rem1 = (some c4Rem1, []) ∧
    (extract_test_module c4Rem1).2 ≠ c4Rem1 ∧
    process_file (SrcPath.mk [] "g.rs") c4Rem1 ≠ [] := by
  refine ⟨by decide, by decide, by decide, by decide⟩

/-- C4 (amended): running the tool twice is idempotent for every file in
which at most one line contains the `'#[cfg(test)]'` marker: after the first
extraction the remainder contains no marker line, so a second run detects no
block, returns the remainder unchanged and performs no write. -/
theorem c4_idempotent_amended (lines tm rem : List String) (p : SrcPath)
    (h : extract_test_module lines = (some tm, rem))
    (hcount : lines.countP (fun l => pyIn cfgPat l) ≤ 1) :
    extract_test_module rem = (none, rem) ∧ process_file p rem = [] := by
  have h2 := second_run_no_block h hcount
  refine ⟨h2, ?_⟩
  unfold process_file
  rw [h2]

/-- Witness for the amended C4 at a concrete input. -/
theorem c4_idempotent_amended_witness :
    extract_test_module ([] : List String) = (none, []) ∧
    process_file (SrcPath.mk [] "w.rs") ([] : List String) = [] :=
  c4_idempotent_amended c4wInput c4wInput [] (SrcPath.mk [] "w.rs") (by decide) (by decide)

/-! ## Claim C5 -/

/-- C5 counterexample: reinserting the re-indented destination fragments at
the original span of `c5Input` yields a 4-line file missing the
`'#[cfg(test)]'` attribute, the `mod tests` wrapper and its closing brace, so
the original bytes are not reproduced. -/
theorem c5_roundtrip_fails :
    roundTripReinsert c5Input =
      some ["fn a() \x7b\x7d\n", "    #[test]\n", "    fn t() \x7b\n", "    \x7d\n"] ∧
    roundTripReinsert c5Input ≠ some c5Input := by
  refine ⟨by decide, by decide⟩

/-- The extracted block of `c5Input` (its span is lines 1 to 6). -/
def c5Block : List String :=
  ["#[cfg(test)]\n", "mod tests \x7b\n", "    #[test]\n", "    fn t() \x7b\n",
   "    \x7d\n", "\x7d\n"]

/-- C5 (amended): the round trip holds fragment by fragment, not for the
whole file: every test-function fragment extracted from a block whose lines
are non-blank and carry the four-space unit is reproduced exactly by
re-adding one indentation level to its cleaned lines, and the fragment is a
contiguous segment of the block; the wrapper lines outside the fragments are
discarded and are not reproduced. -/
theorem c5_fragment_roundtrip_amended (tm fn : List String)
    (hfn : fn ∈ extract_test_functions tm)
    (h : ∀ l ∈ fn, isBlank l = false ∧ pyStartsWith fourSp l = true) :
    (fn.map cleanLine).map reAddIndent = fn ∧ ∃ p q, tm = p ++ fn ++ q :=
  ⟨cleanFrag_roundTrip h, (extract_test_functions_good fn hfn).2⟩

/-- Witness for the amended C5 at a concrete input. -/
theorem c5_fragment_roundtrip_amended_witness :
    (c5wFrag.map cleanLine).map reAddIndent = c5wFrag ∧
    ∃ p q, c5Block = p ++ c5wFrag ++ q :=
  c5_fragment_roundtrip_amended c5Block c5wFrag (by decide) (by decide)

/-! ## Claim C6 -/

/-- C6 counterexample: on `c6Input` the candidate start is line 0 and the
first line containing an opening delimiter is line 1, so the algorithm as
described by the specification ends the block at line 4, while the code —
whose trigger is a line containing both `'mod tests'` and `'{'` — ends it at
line 3. -/
theorem c6_matcher_trigger_differs :
    find_test_start c6Input = some 0 ∧ spec_match_end c6Input 0 = some 4 ∧
      find_test_end c6Input 0 = 3 := by
  refine ⟨by decide, by decide, by decide⟩

/-- C6 (amended): the matcher scans forward from the candidate start line;
the first line containing both the module declaration `'mod tests'` and an
opening delimiter sets the counter to 1; provided no later line matches that
trigger again, every subsequent line adds its (opening count minus closing
count) to the counter, and the end line is the first subsequent line at which
the counter returns to exactly zero. -/
theorem c6_matcher_amended (lines : List String) (ts : Nat) (l1 : List String)
    (t : String) (l2 : List String) (n : Nat)
    (hdec : lines.drop ts = l1 ++ t :: l2)
    (h1 : ∀ s ∈ l1, trigMT s = false)
    (ht : trigMT t = true)
    (h2 : ∀ s ∈ l2, trigMT s = false)
    (hn : n < l2.length)
    (hzero : 1 + ((l2.take (n + 1)).map net).sum = 0)
    (hleast : ∀ m, m < n → 1 + ((l2.take (m + 1)).map net).sum ≠ 0) :
    find_test_end lines ts = ts + l1.length + 1 + n := by
  rw [find_test_end, scan_decomp hdec h1 ht h2,
    firstZero_least l2 1 (ts + l1.length + 1) n hn hzero hleast]

/-- Witness for the amended C6 at a concrete input. -/
theorem c6_matcher_amended_witness : find_test_end c6wInput 0 = 0 + 1 + 1 + 2 :=
  c6_matcher_amended c6wInput 0 ["#[cfg(test)]\n"] ("mod tests \x7b\n")
    ["    fn t() \x7b\n", "    \x7d\n", "\x7d\n"] 2
    (by decide) (by decide) (by decide) (by decide) (by decide) (by decide) (by decide)

/-! ## Claim C7 -/

/-- C7: whenever a block is extracted, the destination file content consists
only of the fixed header, blank separator lines, and the cleaned lines of the
detected test-function fragments; every fragment is a non-empty contiguous
segment of the block beginning at a line carrying `'#[test]'`; and the
rewritten source file is exactly the remainder, which together with the
block and the stripped trailing blanks partitions the original lines.  Block
lines outside the fragments (the attribute line, the module wrapper, helper
declarations) therefore reach neither output and are silently discarded. -/
theorem c7_non_fragment_lines_discarded (mp : String) (lines tm rem : List String)
    (h : extract_test_module lines = (some tm, rem)) :
    (∀ l ∈ testFileContent mp tm,
        l ∈ fixedHeader mp ∨ l = nlStr ∨
          ∃ fn, fn ∈ extract_test_functions tm ∧ ∃ l0 ∈ fn, l = cleanLine l0) ∧
    (∀ fn ∈ extract_test_functions tm,
        (∃ h0 t0, fn = h0 :: t0 ∧ pyIn testAttrPat h0 = true) ∧
        ∃ p q, tm = p ++ fn ++ q) ∧
    (∃ ts te stripped,
        lines = lines.take ts ++ tm ++ lines.drop (te + 1) ∧
        rem ++ stripped = lines.take ts ++ lines.drop (te + 1) ∧
        ∀ s ∈ stripped, isBlank s = true) := by
  refine ⟨?_, ?_, ?_⟩
  · intro l hl
    rw [testFileContent] at hl
    rcases List.mem_append.mp hl with hh | hf
    · exact Or.inl hh
    · obtain ⟨fn, hfn, hin⟩ := List.mem_flatMap.mp hf
      rcases List.mem_append.mp hin with hmap | hnl
      · obtain ⟨l0, hl0, hle⟩ := List.mem_map.mp hmap
        exact Or.inr (Or.inr ⟨fn, hfn, l0, hl0, hle.symm⟩)
      · have : l = nlStr := by simpa using hnl
        exact Or.inr (Or.inl this)
  · intro fn hfn
    exact extract_test_functions_good fn hfn
  · obtain ⟨ts, te, stripped, hspan, htm, hremdef, hsplit, hdc, hblank⟩ :=
      extract_structure h
    exact ⟨ts, te, stripped, hsplit, hdc, hblank⟩

/-- Witness for C7 at a concrete input. -/
theorem c7_non_fragment_lines_discarded_witness :
    (∀ l ∈ testFileContent ("m") c7wInput,
        l ∈ fixedHeader ("m") ∨ l = nlStr ∨
          ∃ fn, fn ∈ extract_test_functions c7wInput ∧ ∃ l0 ∈ fn, l = cleanLine l0) ∧
    (∀ fn ∈ extract_test_functions c7wInput,
        (∃ h0 t0, fn = h0 :: t0 ∧ pyIn testAttrPat h0 = true) ∧
        ∃ p q, c7wInput = p ++ fn ++ q) ∧
    (∃ ts te stripped,
        c7wInput = c7wInput.take ts ++ c7wInput ++ c7wInput.drop (te + 1) ∧
        ([] : List String) ++ stripped = c7wInput.take ts ++ c7wInput.drop (te + 1) ∧
        ∀ s ∈ stripped, isBlank s = true) :=
  c7_non_fragment_lines_discarded ("m") c7wInput c7wInput [] (by decide)

/-! ## Claim C8 -/

/-- C8 counterexample: on a scan whose first `.rs` entry is unreadable the
whole run aborts with that entry's path as the error — the later sibling
`b.rs`, which contains a test module and on its own would be reported, is
never reached.  The source has no exception handling around `open`/`read`. -/
theorem c8_unreadable_aborts_run :
    find_test_modules c8Entries = Except.error "a.rs" ∧
    find_test_modules [("b.rs", some c8Content)] = Except.ok ["b.rs"] := by
  exact ⟨rfl, rfl⟩

/-- C8 (amended): an unreadable `.rs` entry does not merely skip: the raised
error propagates out of the scan, the run aborts with the first unreadable
`.rs` path, and the entries after it are never examined.  Entries before it
that are readable or are not `.rs` files do not mask the abort. -/
theorem c8_unreadable_aborts_amended (pre : List (String × Option String)) (p : String)
    (post : List (String × Option String))
    (hpre : ∀ e ∈ pre, pyEndsWith rsExt e.1 = false ∨ ∃ c, e.2 = some c)
    (hrs : pyEndsWith rsExt p = true) :
    find_test_modules (pre ++ (p, none) :: post) = Except.error p :=
  find_test_modules_aborts pre p post hpre hrs

/-- Witness for the amended C8 at a concrete input. -/
theorem c8_unreadable_aborts_amended_witness :
    find_test_modules
        ([("notes.txt", none)] ++ ("a.rs", none) :: [("b.rs", some c8Content)]) =
      Except.error "a.rs" :=
  c8_unreadable_aborts_amended [("notes.txt", none)] "a.rs" [("b.rs", some c8Content)]
    (by
      intro e he
      have : e = ("notes.txt", none) := by simpa using he
      subst this
      exact Or.inl (by decide))
    (by decide)

/-! ## Claim C9 -/

/-- C9: in the orchestrator's event trace, every overwrite of a source file
with its remainder is preceded by the write of that file's destination test
file: `main` calls `create_test_file` (which writes the destination) strictly
before reopening the original for writing, for every processed file. -/
theorem c9_dest_written_before_src (files : List (SrcPath × List String))
    (l1 l2 : List FsEvent) (p : SrcPath) (r : List String)
    (h : main_trace files = l1 ++ FsEvent.writeSrc p r :: l2) :
    ∃ c, FsEvent.writeDest p c ∈ l1 :=
  trace_dest_before_src files l1 l2 p r h

/-- Witness for C9 at a concrete input. -/
theorem c9_dest_written_before_src_witness :
    ∃ c, FsEvent.writeDest c9Path c ∈ [FsEvent.writeDest c9Path (fixedHeader "x")] :=
  c9_dest_written_before_src [(c9Path, c9Lines)]
    [FsEvent.writeDest c9Path (fixedHeader "x")] [] c9Path [] (by decide)

/-! ## Claim C10 -/

/-- C10 counterexample: the distinct sibling paths `a/.rs` and `a/.rs.rs`
(both matched by the `.endswith('.rs')` filter) resolve to the same
destination path, because CPython's `Path('.rs').stem` is `'.rs'` itself
while `Path('.rs.rs').stem` is also `'.rs'`: destination resolution is not
injective. -/
theorem c10_dest_collision :
    dest_path c10PathA = dest_path c10PathB ∧ c10PathA ≠ c10PathB ∧
    pyEndsWith rsExt c10PathA.name = true ∧ pyEndsWith rsExt c10PathB.name = true := by
  refine ⟨by decide, by decide, by decide, by decide⟩

/-- C10 (amended): destination resolution is a deterministic function of the
relative source path, and it is injective on every pair of source files whose
names consist of a non-empty base followed by the `.rs` extension (which
excludes only hidden files named exactly `.rs`): two such distinct source
paths never resolve to the same destination path. -/
theorem c10_dest_injective_amended (p q : SrcPath) (m1 m2 : String)
    (hp : p.name = m1 ++ rsExt) (hm1 : m1.toList ≠ [])
    (hq : q.name = m2 ++ rsExt) (hm2 : m2.toList ≠ [])
    (h : dest_path p = dest_path q) : p = q :=
  dest_path_inj_normal hp hm1 hq hm2 h

/-- Witness for the amended C10 at a concrete input. -/
theorem c10_dest_injective_amended_witness : c10wPath = c10wPath :=
  c10_dest_injective_amended c10wPath c10wPath "x" "x"
    (by decide) (by decide) (by decide) (by decide) (by decide)
